import Mathlib

/-!
Shallow embedding of the core of the `file-watcher-backup` repository
(`utils/errors.go`, the `BackupManager` source file, `watcher/watcher.go`)
together with theorems settling the frozen claims about it.

Filenames are modelled as `List Char`; Go byte-lexicographic string
comparison is modelled by an explicit lexicographic comparator and related
to Mathlib's canonical `List.Lex (· < ·)`.  Filesystem effects are made
explicit: each fallible system call is an input of the model (an
environment field saying how the call behaves), and each function returns
a trace recording its result together with the effects it performed.
-/

namespace FWB

/-! ## utils/errors.go -/

/-- Model of the Go error values that flow through `utils/errors.go`.
`backup op retryable` models `*BackupError` with its `Operation` and
`Retryable` fields; `permission` and `notExist` model errors for which
`errors.Is(err, os.ErrPermission)` resp. `errors.Is(err, os.ErrNotExist)`
holds; `other` models any other error value. -/
inductive GoError where
  | backup (op : String) (retryable : Bool)
  | permission
  | notExist
  | other
  deriving DecidableEq

/-- Model of `IsRetryable` (errors.go lines 21-35): a `*BackupError` answers
its own `Retryable` field; otherwise a permission error is retryable, a
not-exist error is not, and everything else is not. -/
def IsRetryable : GoError → Bool
  | .backup _ r => r
  | .permission => true
  | .notExist => false
  | .other => false

/-- Result of `RetryWithBackoff`: `ok` models a `nil` return, `failed e`
models returning the non-retryable error `e` directly, and `exceeded last`
models the non-nil aggregate `fmt.Errorf("exceed max retries (%d): %w", ...)`
wrapping the last underlying error (`none` when `fn` was never called). -/
inductive RetryResult where
  | ok
  | failed (e : GoError)
  | exceeded (lastErr : Option GoError)
  deriving DecidableEq

/-- Execution trace of `RetryWithBackoff`: its result, how many times `fn`
was invoked, and the list of `time.Sleep` durations performed between
consecutive attempts, in order. -/
structure RetryTrace where
  result : RetryResult
  calls : ℕ
  delays : List ℕ
  deriving DecidableEq

/-- Loop body of `RetryWithBackoff` (errors.go lines 41-57).  The Go
closure `fn` is modelled as a function from the attempt index (number of
previous invocations) to the outcome of that invocation (`none` = `nil`).
`i` is the current loop index, `rem` the remaining number of iterations
(`maxRetries - i`), `delay` the current backoff delay, `lastErr` the
`lastErr` variable. -/
def retryAux (fn : ℕ → Option GoError) : ℕ → ℕ → ℕ → Option GoError → RetryTrace
  | _, 0, _, lastErr => ⟨.exceeded lastErr, 0, []⟩
  | i, rem + 1, delay, _ =>
    match fn i with
    | none => ⟨.ok, 1, []⟩
    | some e =>
      if IsRetryable e then
        if rem = 0 then
          ⟨.exceeded (some e), 1, []⟩
        else
          ⟨(retryAux fn (i + 1) rem (2 * delay) (some e)).result,
           (retryAux fn (i + 1) rem (2 * delay) (some e)).calls + 1,
           delay :: (retryAux fn (i + 1) rem (2 * delay) (some e)).delays⟩
      else ⟨.failed e, 1, []⟩

/-- Model of `RetryWithBackoff` (errors.go lines 37-60).  `maxRetries` is a
Go `int`, so it is an `Int` here; `for i := range maxRetries` performs
`maxRetries.toNat` iterations.  Delays are in the same (opaque) time unit
as `initialDelay`. -/
def RetryWithBackoff (maxRetries : Int) (initialDelay : ℕ) (fn : ℕ → Option GoError) :
    RetryTrace :=
  retryAux fn 0 maxRetries.toNat initialDelay none

/-- Outcome of the `os.Stat(src)` call of one `SafeCopyFile` attempt:
an error for which `errors.Is(err, os.ErrNotExist)` holds, one for which
`errors.Is(err, os.ErrPermission)` holds, any other stat error, or success
together with whether the stat reports a directory. -/
inductive StatResult where
  | errNotExist
  | errPerm
  | errOther
  | ok (isDir : Bool)
  deriving DecidableEq

/-- Outcome of an `os.Open` / `os.Create` call: success, or an error
together with whether it is a permission error. -/
inductive OpenResult where
  | ok
  | err (isPerm : Bool)
  deriving DecidableEq

/-- One iteration of the 32 KiB chunk loop of `SafeCopyFile`: `data ok`
models `Read` returning `n > 0` bytes with the subsequent `Write`
succeeding iff `ok`; `eofMark` models `Read` returning the `"EOF"` error
(loop break); `readErr` models `Read` returning any other error. -/
inductive ChunkEv where
  | data (writeOk : Bool)
  | eofMark
  | readErr
  deriving DecidableEq

/-- Environment describing how the filesystem behaves during one attempt
of `SafeCopyFile`: the stat outcome, the open/create outcomes, the stream
of chunk events, and whether the final `os.Chmod(dst, srcInfo.Mode())`
succeeds. -/
structure CopyEnv where
  stat : StatResult
  openRes : OpenResult
  createRes : OpenResult
  chunks : List ChunkEv
  chmodOk : Bool

/-- The chunk loop of `SafeCopyFile` (errors.go lines 105-130): a failed
write yields the `write` backup error (retryable), a non-EOF read error
yields the `read` backup error (retryable), EOF breaks the loop with
success.  (A real run always ends in `eofMark` or `readErr`; an exhausted
list is treated as the loop having ended.) -/
def copyLoop : List ChunkEv → Option GoError
  | [] => none
  | .data ok :: rest => if ok then copyLoop rest else some (.backup "write" true)
  | .eofMark :: _ => none
  | .readErr :: _ => some (.backup "read" true)

/-- One attempt of `SafeCopyFile` (the closure at errors.go lines 63-137):
stat errors are wrapped as `stat_source` backup errors whose `Retryable`
field is `errors.Is(err, os.ErrPermission)`; a directory source yields the
non-retryable `check_type` error; open/create errors are wrapped with
retryability equal to being a permission error; then the chunk loop runs;
finally a `Chmod` failure is swallowed (the attempt still returns `nil`,
exactly as `if err := os.Chmod(...); err != nil { return nil }`). -/
def copyAttempt (env : CopyEnv) : Option GoError :=
  match env.stat with
  | .errNotExist => some (.backup "stat_source" false)
  | .errPerm => some (.backup "stat_source" true)
  | .errOther => some (.backup "stat_source" false)
  | .ok isDir =>
    if isDir then some (.backup "check_type" false)
    else
      match env.openRes with
      | .err isPerm => some (.backup "open_source" isPerm)
      | .ok =>
        match env.createRes with
        | .err isPerm => some (.backup "create_destination" isPerm)
        | .ok =>
          match copyLoop env.chunks with
          | some e => some e
          | none => if env.chmodOk then none else none

/-- Whether an attempt with environment `env` reaches and succeeds at
`os.Create(dst)`, i.e. leaves at least a (possibly partial) destination
file on disk. -/
def createSucceeded (env : CopyEnv) : Bool :=
  match env.stat with
  | .ok false =>
    match env.openRes with
    | .ok => match env.createRes with | .ok => true | .err _ => false
    | .err _ => false
  | _ => false

/-- Model of `SafeCopyFile src dst maxRetries` (errors.go line 62-63):
`RetryWithBackoff(maxRetries, 100*time.Millisecond, attempt)`, where the
behaviour of the filesystem during the `i`-th attempt is `envs i`.
Delays are in milliseconds, so the base delay is `100`. -/
def SafeCopyFile (envs : ℕ → CopyEnv) (maxRetries : Int) : RetryTrace :=
  RetryWithBackoff maxRetries 100 (fun i => copyAttempt (envs i))

/-! ## Filenames, timestamps and lexicographic order (BackupManager) -/

/-- A filename, modelled as its list of characters (Go compares strings
byte-lexicographically; for the names involved here this coincides with
character-lexicographic comparison). -/
abbrev Name := List Char

/-- Strict lexicographic comparison of character lists, modelling Go's
`<` on strings as used by `sort.Strings`. -/
def charListLt : Name → Name → Bool
  | _, [] => false
  | [], _ :: _ => true
  | a :: as, b :: bs =>
    if a < b then true
    else if b < a then false
    else charListLt as bs

/-- The ordering used by `sort.Strings`: `nameLe a b` says `a` sorts no
later than `b` (i.e. not `b < a`). -/
def nameLe (a b : Name) : Prop := charListLt b a = false

instance : DecidableRel nameLe := fun a b => by
  unfold nameLe
  infer_instance

/-- Model of `sort.Strings(matches)`: sort ascending lexicographically. -/
def sortNames (l : List Name) : List Name := l.insertionSort nameLe

/-- Fixed-width, zero-padded, most-significant-digit-first decimal
rendering of `n` on `w` digits, as produced for each field by Go's
`time.Format` with the layout `"20060102_150405.000000"`. -/
def padNum : ℕ → ℕ → List Char
  | 0, _ => []
  | w + 1, n => Nat.digitChar (n / 10 ^ w) :: padNum w (n % 10 ^ w)

/-- A wall-clock instant at microsecond resolution, decomposed the way the
layout `"20060102_150405.000000"` renders it. -/
structure Timestamp where
  year : ℕ
  month : ℕ
  day : ℕ
  hour : ℕ
  minute : ℕ
  second : ℕ
  micro : ℕ
  deriving DecidableEq

/-- Field bounds guaranteeing that each field fits in its fixed-width slot
of the layout (real calendar values satisfy far tighter bounds). -/
def Timestamp.valid (t : Timestamp) : Prop :=
  t.year < 10 ^ 4 ∧ t.month < 10 ^ 2 ∧ t.day < 10 ^ 2 ∧ t.hour < 10 ^ 2 ∧
    t.minute < 10 ^ 2 ∧ t.second < 10 ^ 2 ∧ t.micro < 10 ^ 6

instance (t : Timestamp) : Decidable t.valid := by
  unfold Timestamp.valid
  infer_instance

/-- Chronological (calendar) order of two instants: lexicographic on
(year, month, day, hour, minute, second, microsecond). -/
def Timestamp.earlier (a b : Timestamp) : Prop :=
  a.year < b.year ∨ (a.year = b.year ∧
    (a.month < b.month ∨ (a.month = b.month ∧
      (a.day < b.day ∨ (a.day = b.day ∧
        (a.hour < b.hour ∨ (a.hour = b.hour ∧
          (a.minute < b.minute ∨ (a.minute = b.minute ∧
            (a.second < b.second ∨ (a.second = b.second ∧
              a.micro < b.micro)))))))))))

instance (a b : Timestamp) : Decidable (a.earlier b) := by
  unfold Timestamp.earlier
  infer_instance

/-- The characters produced by `time.Now().Format("20060102_150405.000000")`
for the instant `t`: `YYYYMMDD_HHMMSS.mmmmmm`. -/
def Timestamp.fmt (t : Timestamp) : List Char :=
  padNum 4 t.year ++ (padNum 2 t.month ++ (padNum 2 t.day ++
    ('_' :: (padNum 2 t.hour ++ (padNum 2 t.minute ++ (padNum 2 t.second ++
      ('.' :: padNum 6 t.micro)))))))

/-- The backup filename `fmt.Sprintf("%s_%s%s", nameWithoutExt, timestamp, ext)`
(BackupManager, CreateBackup): `<baseNameWithoutExt>_<timestamp><ext>`. -/
def backupName (base ext : Name) (t : Timestamp) : Name :=
  base ++ ('_' :: (t.fmt ++ ext))

/-- The per-file version directory `filepath.Join(bm.backupDir, relPath+"_versions")`. -/
def fileVersionDir (backupDir relPath : Name) : Name :=
  backupDir ++ ('/' :: (relPath ++ ['_', 'v', 'e', 'r', 's', 'i', 'o', 'n', 's']))

/-- The full backup path `filepath.Join(fileVersionDir, backupName)`. -/
def backupPath (backupDir relPath base ext : Name) (t : Timestamp) : Name :=
  fileVersionDir backupDir relPath ++ ('/' :: backupName base ext t)

/-! ## BackupManager: CreateBackup and cleanOldVersions -/

/-- Removing one file from a directory listing (the effect of a
successful `os.Remove`): delete the first occurrence of `f`. -/
def eraseName : List Name → Name → List Name
  | [], _ => []
  | x :: xs, f => if x = f then xs else x :: eraseName xs f

/-- The removal loop of `cleanOldVersions` (lines 83-88): delete the names
of `toRemove` one after the other from the directory `dir`, stopping at
the first name whose `os.Remove` fails (as given by `fails`).  Returns the
error (the name that failed to be removed, if any), the list of names
actually removed in order, and the remaining directory contents. -/
def removeSeq (fails : Name → Bool) : List Name → List Name → Option Name × List Name × List Name
  | [], dir => (none, [], dir)
  | f :: rest, dir =>
    if fails f then (some f, [], dir)
    else
      let r := removeSeq fails rest (eraseName dir f)
      (r.1, f :: r.2.1, r.2.2)

/-- Model of `cleanOldVersions` (BackupManager lines 69-91).  `dir` is the
list of version files currently matching the glob
`<baseName>_*<ext>` in the version directory (pairwise distinct, in
arbitrary order).  If at most `maxVersions` match, nothing happens;
otherwise the matches are sorted ascending and the oldest
`count - maxVersions` are removed in ascending order. -/
def cleanOldVersions (maxVersions : ℕ) (fails : Name → Bool) (dir : List Name) :
    Option Name × List Name × List Name :=
  let sorted := sortNames dir
  if sorted.length ≤ maxVersions then (none, [], dir)
  else removeSeq fails (sorted.take (sorted.length - maxVersions)) dir

/-- Result of `CreateBackup`: success, the not-found early return
(line 33-35), a `MkdirAll` failure, a copy failure wrapping the
`SafeCopyFile` result, or a cleanup failure naming the version file whose
removal failed. -/
inductive BackupResult where
  | ok
  | errNotFound
  | errMkdir
  | errCopy (r : RetryResult)
  | errClean (f : Name)
  deriving DecidableEq

/-- Environment describing how the filesystem behaves during one
`CreateBackup` call: whether the source exists at the initial stat,
whether `MkdirAll` succeeds, how each `SafeCopyFile` attempt behaves, and
which version-file removals fail. -/
structure BackupEnv where
  sourceExists : Bool
  mkdirOk : Bool
  copyEnvs : ℕ → CopyEnv
  removeFails : Name → Bool

/-- Execution trace of `CreateBackup`: its result, whether `MkdirAll` was
called, how many copy attempts ran, which version files were removed (in
order), and the final contents of the version directory (the files
matching the `<baseName>_*<ext>` glob). -/
structure BackupTrace where
  result : BackupResult
  mkdirCalled : Bool
  copyCalls : ℕ
  removed : List Name
  dir : List Name

/-- Model of `CreateBackup` (BackupManager lines 32-66) for one logical
source file with base name `base` and extension `ext`, invoked at instant
`ts`, on a version directory currently holding the matching files `dir`.
Mirrors the source order: stat the source (not-found early return),
compute the timestamped name, `MkdirAll` the version directory,
`SafeCopyFile` with 3 attempts (a failed copy leaves the partial
destination file iff some attempt reached `os.Create` successfully), then
`cleanOldVersions`.  (`filepath.Rel` cannot fail here, and the newly
written file matches the glob, the embedded timestamp being covered by
its `*` wildcard.) -/
def CreateBackup (maxVersions : ℕ) (base ext : Name) (ts : Timestamp)
    (env : BackupEnv) (dir : List Name) : BackupTrace :=
  if env.sourceExists = false then
    ⟨.errNotFound, false, 0, [], dir⟩
  else
    let newName := backupName base ext ts
    if env.mkdirOk = false then
      ⟨.errMkdir, true, 0, [], dir⟩
    else
      let ct := SafeCopyFile env.copyEnvs 3
      match ct.result with
      | .ok =>
        let dir1 := newName :: dir
        let c := cleanOldVersions maxVersions env.removeFails dir1
        match c.1 with
        | some f => ⟨.errClean f, true, ct.calls, c.2.1, c.2.2⟩
        | none => ⟨.ok, true, ct.calls, c.2.1, c.2.2⟩
      | r =>
        let dirFail :=
          if (List.range ct.calls).any (fun i => createSucceeded (env.copyEnvs i)) then
            newName :: dir
          else dir
        ⟨.errCopy r, true, ct.calls, [], dirFail⟩

/-! ## watcher/watcher.go -/

/-- The mutable state of `FileWatcher` relevant to the claims: the
`lastBackup` map (an association list, most recent binding first) and the
`backupQueue` channel abstracted to its length and capacity. -/
structure WState where
  lastBackup : List (String × Int)
  queueLen : ℕ
  queueCap : ℕ
  deriving DecidableEq

/-- Trace of one `enqueueBackup` call: the new state, whether the debounce
check admitted the event (no early `return` at line 330), and whether the
job was actually placed on the queue. -/
structure EnqueueTrace where
  state : WState
  admitted : Bool
  enqueued : Bool
  deriving DecidableEq

/-- The `select` at the end of `enqueueBackup` (lines 339-346): the
non-blocking send succeeds iff the queue has room, and only then is
`fw.lastBackup[path] = time.Now()` recorded; on a full queue the job is
dropped and the map is left untouched. -/
def enqueueAttempt (st : WState) (path : String) (now : Int) : EnqueueTrace :=
  if st.queueLen < st.queueCap then
    ⟨⟨(path, now) :: st.lastBackup, st.queueLen + 1, st.queueCap⟩, true, true⟩
  else ⟨st, true, false⟩

/-- Model of `enqueueBackup` (watcher.go lines 180-204 of the source
file; `time.Since(lastTime)` is `now - lastTime`).  The event is
suppressed iff an entry exists and `now - lastTime < minInterval`. -/
def enqueueBackup (minInterval : Int) (st : WState) (path : String) (now : Int) :
    EnqueueTrace :=
  match st.lastBackup.lookup path with
  | some lastTime =>
    if now - lastTime < minInterval then ⟨st, false, false⟩
    else enqueueAttempt st path now
  | none => enqueueAttempt st path now

/-- Prefix test on character lists (auxiliary for substring search). -/
def hasPref : List Char → List Char → Bool
  | [], _ => true
  | _ :: _, [] => false
  | a :: as, b :: bs => a = b && hasPref as bs

/-- Substring test on character lists (auxiliary for `strings.Contains`). -/
def hasSubAux (sub : List Char) : List Char → Bool
  | [] => hasPref sub []
  | c :: s => hasPref sub (c :: s) || hasSubAux sub s

/-- Model of `strings.Contains(s, pat)`. -/
def containsStr (s pat : String) : Bool := hasSubAux pat.data s.data

/-- Model of `filepath.Base`: strip trailing slashes, then keep everything
after the last slash (with the Go conventions `Base "" = "."` and `Base`
of a path of only slashes `= "/"`). -/
def baseName (s : String) : String :=
  if s.data = [] then "."
  else
    if s.data.reverse.dropWhile (fun c => c = '/') = [] then "/"
    else
      ⟨((s.data.reverse.dropWhile (fun c => c = '/')).takeWhile (fun c => c ≠ '/')).reverse⟩

/-- Model of `shouldIgnore` (watcher.go): walk the configured patterns and
return true on the first whose glob match against the base name succeeds
(`filepath.Match`, abstracted as the parameter `glob`, whose error is
discarded by the source) or which occurs as a substring of the full path
(`strings.Contains`). -/
def shouldIgnore (glob : String → String → Bool) (patterns : List String) (path : String) :
    Bool :=
  match patterns with
  | [] => false
  | p :: rest =>
    if glob p (baseName path) then true
    else if containsStr path p then true
    else shouldIgnore glob rest path

/-- An fsnotify event: the path and the operation bitmask (fsnotify `Op`
is a set of flags; the handler inspects them in the source's order). -/
structure FsEvent where
  name : String
  create : Bool
  write : Bool
  remove : Bool
  rename : Bool
  chmod : Bool

/-- Trace of one `handleEvent` call: the new watcher state, whether
`fw.watcher.Add` was called on the event's path (new directory
registration), and whether `enqueueBackup` was invoked. -/
structure HandleTrace where
  state : WState
  dirWatched : Bool
  enqueueCalled : Bool

/-- The common tail of the create/write cases of `handleEvent`
(lines after the switch): directories are not backed up, ignored paths
are dropped silently, and otherwise `enqueueBackup` runs. -/
def handleTail (glob : String → String → Bool) (patterns : List String) (minInterval : Int)
    (isDir : String → Bool) (ev : FsEvent) (now : Int) (st : WState) (watched : Bool) :
    HandleTrace :=
  if isDir ev.name then ⟨st, watched, false⟩
  else if shouldIgnore glob patterns ev.name then ⟨st, watched, false⟩
  else ⟨(enqueueBackup minInterval st ev.name now).state, watched, true⟩

/-- Model of `handleEvent` (watcher.go lines 131-177 of the source file).
The `switch` inspects the bitmask in order Create, Write, Remove, Rename,
Chmod; Remove, Rename and Chmod (and an empty mask) return immediately;
Create additionally registers a newly created directory with the watch
service before falling through to the common tail. -/
def handleEvent (glob : String → String → Bool) (patterns : List String) (minInterval : Int)
    (isDir : String → Bool) (ev : FsEvent) (now : Int) (st : WState) : HandleTrace :=
  if ev.create then
    handleTail glob patterns minInterval isDir ev now st (isDir ev.name)
  else if ev.write then
    handleTail glob patterns minInterval isDir ev now st false
  else ⟨st, false, false⟩

/-! ## Retry loop lemmas (for claims C3 and C10) -/

/-- Attempt `k` of `fn` fails with a retryable error. -/
def retryableAt (fn : ℕ → Option GoError) (k : ℕ) : Prop :=
  ∃ e, fn k = some e ∧ IsRetryable e = true

theorem retryAux_calls_pos (fn : ℕ → Option GoError) (rem : ℕ) (h : rem ≠ 0)
    (i delay : ℕ) (lastErr : Option GoError) :
    1 ≤ (retryAux fn i rem delay lastErr).calls := by
  obtain ⟨r, rfl⟩ : ∃ r, rem = r + 1 := ⟨rem - 1, by omega⟩
  simp only [retryAux]
  cases fn i with
  | none => simp
  | some e =>
    by_cases hr : IsRetryable e <;> by_cases h0 : r = 0 <;> simp [hr, h0]

theorem retryAux_calls_le (fn : ℕ → Option GoError) (rem : ℕ) :
    ∀ (i delay : ℕ) (lastErr : Option GoError),
      (retryAux fn i rem delay lastErr).calls ≤ rem := by
  induction rem with
  | zero => intro i delay lastErr; simp [retryAux]
  | succ r ih =>
    intro i delay lastErr
    simp only [retryAux]
    cases fn i with
    | none => simp
    | some e =>
      by_cases hr : IsRetryable e
      · by_cases h0 : r = 0
        · simp [hr, h0]
        · have := ih (i + 1) (2 * delay) (some e)
          simp [hr, h0]
          omega
      · simp [hr]

theorem retryAux_delays (fn : ℕ → Option GoError) (rem : ℕ) :
    ∀ (i delay : ℕ) (lastErr : Option GoError),
      (retryAux fn i rem delay lastErr).delays =
        (List.range ((retryAux fn i rem delay lastErr).calls - 1)).map
          (fun k => delay * 2 ^ k) := by
  induction rem with
  | zero => intro i delay lastErr; simp [retryAux]
  | succ r ih =>
    intro i delay lastErr
    simp only [retryAux]
    cases fn i with
    | none => simp
    | some e =>
      by_cases hr : IsRetryable e
      · by_cases h0 : r = 0
        · simp [hr, h0]
        · simp only [if_pos hr, if_neg h0]
          obtain ⟨c, hc⟩ : ∃ c, (retryAux fn (i + 1) r (2 * delay) (some e)).calls = c + 1 :=
            ⟨(retryAux fn (i + 1) r (2 * delay) (some e)).calls - 1, by
              have := retryAux_calls_pos fn r h0 (i + 1) (2 * delay) (some e)
              omega⟩
          rw [ih (i + 1) (2 * delay) (some e), hc]
          simp only [Nat.add_sub_cancel, List.range_succ_eq_map, List.map_cons, List.map_map,
            pow_zero, mul_one]
          refine congrArg _ ?_
          refine List.map_congr_left ?_
          intro k _
          simp only [Function.comp_apply, pow_succ]
          ring
      · simp [hr]

theorem retryAux_first_success (fn : ℕ → Option GoError) (j : ℕ) :
    ∀ (rem i delay : ℕ) (lastErr : Option GoError),
      j < rem → fn (i + j) = none → (∀ k, k < j → retryableAt fn (i + k)) →
      (retryAux fn i rem delay lastErr).result = .ok ∧
        (retryAux fn i rem delay lastErr).calls = j + 1 := by
  induction j with
  | zero =>
    intro rem i delay lastErr hj h0 _
    obtain ⟨r, rfl⟩ : ∃ r, rem = r + 1 := ⟨rem - 1, by omega⟩
    rw [Nat.add_zero] at h0
    simp [retryAux, h0]
  | succ j ih =>
    intro rem i delay lastErr hj hs hk
    obtain ⟨r, rfl⟩ : ∃ r, rem = r + 1 := ⟨rem - 1, by omega⟩
    obtain ⟨e, he, her⟩ := hk 0 (by omega)
    rw [Nat.add_zero] at he
    have h0 : r ≠ 0 := by omega
    have hrec := ih r (i + 1) (2 * delay) (some e) (by omega)
      (by rw [show i + 1 + j = i + (j + 1) by omega]; exact hs)
      (fun k hk' => by
        have := hk (k + 1) (by omega)
        rwa [show i + (k + 1) = i + 1 + k by omega] at this)
    simp [retryAux, he, her, h0, hrec.1, hrec.2]

theorem retryAux_first_fatal (fn : ℕ → Option GoError) (j : ℕ) :
    ∀ (rem i delay : ℕ) (lastErr : Option GoError) (e : GoError),
      j < rem → fn (i + j) = some e → IsRetryable e = false →
      (∀ k, k < j → retryableAt fn (i + k)) →
      (retryAux fn i rem delay lastErr).result = .failed e ∧
        (retryAux fn i rem delay lastErr).calls = j + 1 := by
  induction j with
  | zero =>
    intro rem i delay lastErr e hj h0 hnr _
    obtain ⟨r, rfl⟩ : ∃ r, rem = r + 1 := ⟨rem - 1, by omega⟩
    rw [Nat.add_zero] at h0
    simp [retryAux, h0, hnr]
  | succ j ih =>
    intro rem i delay lastErr e hj hs hnr hk
    obtain ⟨r, rfl⟩ : ∃ r, rem = r + 1 := ⟨rem - 1, by omega⟩
    obtain ⟨e0, he0, her0⟩ := hk 0 (by omega)
    rw [Nat.add_zero] at he0
    have h0 : r ≠ 0 := by omega
    have hrec := ih r (i + 1) (2 * delay) (some e0) e (by omega)
      (by rw [show i + 1 + j = i + (j + 1) by omega]; exact hs) hnr
      (fun k hk' => by
        have := hk (k + 1) (by omega)
        rwa [show i + (k + 1) = i + 1 + k by omega] at this)
    simp [retryAux, he0, her0, h0, hrec.1, hrec.2]

theorem retryAux_exhaust (fn : ℕ → Option GoError) (rem : ℕ) :
    ∀ (i delay : ℕ) (lastErr : Option GoError),
      1 ≤ rem → (∀ k, k < rem → retryableAt fn (i + k)) →
      ∃ e, fn (i + (rem - 1)) = some e ∧ IsRetryable e = true ∧
        (retryAux fn i rem delay lastErr).result = .exceeded (some e) ∧
        (retryAux fn i rem delay lastErr).calls = rem := by
  induction rem with
  | zero => intro i delay lastErr h _; omega
  | succ r ih =>
    intro i delay lastErr _ hall
    obtain ⟨e, he, her⟩ := hall 0 (by omega)
    rw [Nat.add_zero] at he
    by_cases h0 : r = 0
    · subst h0
      exact ⟨e, by simpa using he, her, by simp [retryAux, he, her], by
        simp [retryAux, he, her]⟩
    · have hrec := ih (i + 1) (2 * delay) (some e) (by omega)
        (fun k hk' => by
          have := hall (k + 1) (by omega)
          rwa [show i + (k + 1) = i + 1 + k by omega] at this)
      obtain ⟨e', he', her', hres, hcalls⟩ := hrec
      refine ⟨e', ?_, her', ?_, ?_⟩
      · rw [← he']
        refine congrArg _ ?_
        omega
      · simp [retryAux, he, her, h0, hres]
      · simp [retryAux, he, her, h0, hcalls]

/-! ## Claim C3 -/

/-- C3: for every operation `fn` and `maxAttempts >= 1`, `RetryWithBackoff`
invokes `fn` at most `maxAttempts` times; the waits between consecutive
attempts are exactly `base, 2*base, 4*base, ...`  (the delay list is
`base * 2^k` for `k` ranging below `calls - 1`); when the first `j`
attempts fail retryably it returns `fn`'s error directly on a
non-retryable failure at attempt `j`, returns success on a success at
attempt `j` (each after exactly `j + 1` invocations), and after
`maxAttempts` retryable failures it returns the aggregate error wrapping
the last underlying error after exactly `maxAttempts` invocations. -/
theorem retryWithBackoff_spec (maxRetries : Int) (initialDelay : ℕ)
    (fn : ℕ → Option GoError) (h : 1 ≤ maxRetries) :
    (RetryWithBackoff maxRetries initialDelay fn).calls ≤ maxRetries.toNat ∧
    (RetryWithBackoff maxRetries initialDelay fn).delays =
      (List.range ((RetryWithBackoff maxRetries initialDelay fn).calls - 1)).map
        (fun k => initialDelay * 2 ^ k) ∧
    (∀ j, j < maxRetries.toNat → fn j = none → (∀ k, k < j → retryableAt fn k) →
      (RetryWithBackoff maxRetries initialDelay fn).result = .ok ∧
        (RetryWithBackoff maxRetries initialDelay fn).calls = j + 1) ∧
    (∀ j e, j < maxRetries.toNat → fn j = some e → IsRetryable e = false →
      (∀ k, k < j → retryableAt fn k) →
      (RetryWithBackoff maxRetries initialDelay fn).result = .failed e ∧
        (RetryWithBackoff maxRetries initialDelay fn).calls = j + 1) ∧
    ((∀ k, k < maxRetries.toNat → retryableAt fn k) →
      ∃ e, fn (maxRetries.toNat - 1) = some e ∧
        (RetryWithBackoff maxRetries initialDelay fn).result = .exceeded (some e) ∧
        (RetryWithBackoff maxRetries initialDelay fn).calls = maxRetries.toNat) := by
  refine ⟨retryAux_calls_le fn maxRetries.toNat 0 initialDelay none,
    retryAux_delays fn maxRetries.toNat 0 initialDelay none, ?_, ?_, ?_⟩
  · intro j hj hs hk
    exact retryAux_first_success fn j maxRetries.toNat 0 initialDelay none hj
      (by simpa using hs) (fun k hk' => by simpa using hk k hk')
  · intro j e hj hs hnr hk
    exact retryAux_first_fatal fn j maxRetries.toNat 0 initialDelay none e hj
      (by simpa using hs) hnr (fun k hk' => by simpa using hk k hk')
  · intro hall
    have h1 : 1 ≤ maxRetries.toNat := by omega
    obtain ⟨e, he, _, hres, hcalls⟩ := retryAux_exhaust fn maxRetries.toNat 0 initialDelay
      none h1 (fun k hk' => by simpa using hall k hk')
    exact ⟨e, by simpa using he, hres, hcalls⟩

theorem retryWithBackoff_spec_witness :
    (RetryWithBackoff 3 100 (fun i => if i < 2 then some (.backup "write" true)
        else none)).result = .ok ∧
      (RetryWithBackoff 3 100 (fun i => if i < 2 then some (.backup "write" true)
        else none)).calls = 3 ∧
      (RetryWithBackoff 3 100 (fun i => if i < 2 then some (.backup "write" true)
        else none)).delays = [100, 200] := by
  have h := retryWithBackoff_spec 3 100
    (fun i => if i < 2 then some (.backup "write" true) else none) (by decide)
  have h3 := h.2.2.1 2 (by decide) (by simp)
    (fun k hk => ⟨.backup "write" true, by simp [hk], rfl⟩)
  refine ⟨h3.1, h3.2, ?_⟩
  rw [h.2.1, h3.2]
  rfl

/-! ## Claim C10 -/

/-- C10: for every `maxRetries <= 0`, `RetryWithBackoff` returns the
non-nil "exceed max retries" aggregate error (wrapping no underlying
error) without ever invoking the supplied function, so success is
impossible with a non-positive attempt budget. -/
theorem retryWithBackoff_nonpositive_budget (maxRetries : Int) (initialDelay : ℕ)
    (fn : ℕ → Option GoError) (h : maxRetries ≤ 0) :
    RetryWithBackoff maxRetries initialDelay fn = ⟨.exceeded none, 0, []⟩ := by
  unfold RetryWithBackoff
  rw [Int.toNat_of_nonpos h]
  rfl

theorem retryWithBackoff_nonpositive_budget_witness :
    RetryWithBackoff (-2) 100 (fun _ => none) = ⟨.exceeded none, 0, []⟩ :=
  retryWithBackoff_nonpositive_budget (-2) 100 (fun _ => none) (by decide)

/-! ## Claim C5 -/

/-- C5: if the source path does not exist at the moment `CreateBackup` is
invoked, it fails with the not-found error without any copy attempt
(`copyCalls = 0`), without creating the version directory
(`mkdirCalled = false`) and without creating any partial backup file (the
version directory contents are unchanged). -/
theorem createBackup_source_missing (maxVersions : ℕ) (base ext : Name) (ts : Timestamp)
    (env : BackupEnv) (dir : List Name) (h : env.sourceExists = false) :
    CreateBackup maxVersions base ext ts env dir = ⟨.errNotFound, false, 0, [], dir⟩ := by
  simp [CreateBackup, h]

theorem createBackup_source_missing_witness :
    CreateBackup 3 ['a'] [] ⟨2024, 1, 2, 3, 4, 5, 6⟩
        ⟨false, true, fun _ => ⟨.ok false, .ok, .ok, [.eofMark], true⟩, fun _ => false⟩ [] =
      ⟨.errNotFound, false, 0, [], []⟩ :=
  createBackup_source_missing 3 ['a'] [] ⟨2024, 1, 2, 3, 4, 5, 6⟩
    ⟨false, true, fun _ => ⟨.ok false, .ok, .ok, [.eofMark], true⟩, fun _ => false⟩ [] rfl

/-! ## Claim C4 -/

/-- C4: classification of the failures of one `SafeCopyFile` attempt.
A stat failure is wrapped non-retryably when the source does not exist
(and also for other non-permission stat errors is non-retryable), and
retryably on a permission error; a directory source is a non-retryable
`check_type` failure; every error produced by the chunk loop (read or
write failure mid-stream) is retryable; and once stat/open/create have
succeeded the attempt's outcome is exactly the chunk loop's outcome — in
particular a `Chmod` failure after a successful byte copy is not treated
as a copy failure (the attempt still returns success). -/
theorem safeCopy_attempt_classification :
    (∀ env : CopyEnv, env.stat = .errNotExist →
      copyAttempt env = some (.backup "stat_source" false) ∧
        IsRetryable (.backup "stat_source" false) = false) ∧
    (∀ env : CopyEnv, env.stat = .errPerm →
      copyAttempt env = some (.backup "stat_source" true) ∧
        IsRetryable (.backup "stat_source" true) = true) ∧
    (∀ env : CopyEnv, env.stat = .ok true →
      copyAttempt env = some (.backup "check_type" false) ∧
        IsRetryable (.backup "check_type" false) = false) ∧
    (∀ (chunks : List ChunkEv) (e : GoError),
      copyLoop chunks = some e → IsRetryable e = true) ∧
    (∀ env : CopyEnv, env.stat = .ok false → env.openRes = .ok → env.createRes = .ok →
      copyAttempt env = copyLoop env.chunks) := by
  refine ⟨?_, ?_, ?_, ?_, ?_⟩
  · intro env h
    exact ⟨by simp [copyAttempt, h], rfl⟩
  · intro env h
    exact ⟨by simp [copyAttempt, h], rfl⟩
  · intro env h
    exact ⟨by simp [copyAttempt, h], rfl⟩
  · intro chunks
    induction chunks with
    | nil => intro e h; simp [copyLoop] at h
    | cons c rest ih =>
      intro e h
      cases c with
      | data writeOk =>
        cases writeOk with
        | false =>
          simp [copyLoop] at h
          rw [← h]
          rfl
        | true => exact ih e (by simpa [copyLoop] using h)
      | eofMark => simp [copyLoop] at h
      | readErr =>
        simp [copyLoop] at h
        rw [← h]
        rfl
  · intro env hstat hopen hcreate
    unfold copyAttempt
    rw [hstat, hopen, hcreate]
    cases hc : copyLoop env.chunks with
    | some e => simp
    | none => simp

theorem safeCopy_attempt_classification_witness :
    copyAttempt ⟨.errNotExist, .ok, .ok, [], true⟩ = some (.backup "stat_source" false) ∧
    copyAttempt ⟨.errPerm, .ok, .ok, [], true⟩ = some (.backup "stat_source" true) ∧
    copyAttempt ⟨.ok true, .ok, .ok, [], true⟩ = some (.backup "check_type" false) ∧
    IsRetryable (.backup "write" true) = true ∧
    copyAttempt ⟨.ok false, .ok, .ok, [.eofMark], false⟩ = copyLoop [.eofMark] :=
  ⟨(safeCopy_attempt_classification.1 _ rfl).1,
   (safeCopy_attempt_classification.2.1 _ rfl).1,
   (safeCopy_attempt_classification.2.2.1 _ rfl).1,
   safeCopy_attempt_classification.2.2.2.1 [.data false] _ rfl,
   safeCopy_attempt_classification.2.2.2.2 _ rfl rfl rfl⟩

/-! ## Claim C2 -/

/-- C2 counterexample: the claim "on admission it records
`lastBackup[path] = now`" fails on the code.  With a full queue (here
capacity 0) and no prior entry for the path, the debounce check admits
the event, yet `enqueueBackup` returns with the `lastBackup` map (and the
whole state) unchanged: the recording happens only inside the successful
branch of the non-blocking send. -/
theorem enqueueBackup_admits_without_recording_on_full_queue :
    (enqueueBackup 5 ⟨[], 0, 0⟩ "a" 10).admitted = true ∧
      (enqueueBackup 5 ⟨[], 0, 0⟩ "a" 10).state.lastBackup.lookup "a" = none ∧
      (enqueueBackup 5 ⟨[], 0, 0⟩ "a" 10).state = ⟨[], 0, 0⟩ := by
  refine ⟨rfl, rfl, rfl⟩

/-- C2 (amended): the debounce check admits the event iff no prior entry
for the path exists or `now - lastBackup[path] >= minInterval`; on
suppression it returns without mutating the state; on admission it
records `lastBackup[path] = now` and enqueues the job when the queue has
room, while on a full queue it drops the job and leaves the map (and the
whole state) unmutated. -/
theorem enqueueBackup_spec (minInterval : Int) (st : WState) (path : String) (now : Int) :
    ((enqueueBackup minInterval st path now).admitted = true ↔
      st.lastBackup.lookup path = none ∨
        ∃ lastTime, st.lastBackup.lookup path = some lastTime ∧
          minInterval ≤ now - lastTime) ∧
    ((enqueueBackup minInterval st path now).admitted = false →
      enqueueBackup minInterval st path now = ⟨st, false, false⟩) ∧
    ((enqueueBackup minInterval st path now).admitted = true → st.queueLen < st.queueCap →
      (enqueueBackup minInterval st path now).state.lastBackup.lookup path = some now ∧
        (enqueueBackup minInterval st path now).enqueued = true ∧
        (enqueueBackup minInterval st path now).state.queueLen = st.queueLen + 1) ∧
    ((enqueueBackup minInterval st path now).admitted = true →
      ¬ st.queueLen < st.queueCap →
      (enqueueBackup minInterval st path now).state = st ∧
        (enqueueBackup minInterval st path now).enqueued = false) := by
  cases hl : st.lastBackup.lookup path with
  | none =>
    by_cases hq : st.queueLen < st.queueCap
    · refine ⟨by simp [enqueueBackup, enqueueAttempt, hl, hq], ?_, ?_, ?_⟩
      · intro h
        simp [enqueueBackup, enqueueAttempt, hl, hq] at h
      · intro _ _
        refine ⟨?_, ?_, ?_⟩
        · simp [enqueueBackup, enqueueAttempt, hl, hq, List.lookup]
        · simp [enqueueBackup, enqueueAttempt, hl, hq]
        · simp [enqueueBackup, enqueueAttempt, hl, hq]
      · intro _ h
        exact absurd hq h
    · refine ⟨by simp [enqueueBackup, enqueueAttempt, hl, hq], ?_, ?_, ?_⟩
      · intro h
        simp [enqueueBackup, enqueueAttempt, hl, hq] at h
      · intro _ h
        exact absurd h hq
      · intro _ _
        exact ⟨by simp [enqueueBackup, enqueueAttempt, hl, hq], by
          simp [enqueueBackup, enqueueAttempt, hl, hq]⟩
  | some lastTime =>
    by_cases hd : now - lastTime < minInterval
    · refine ⟨?_, ?_, ?_, ?_⟩
      · simp only [enqueueBackup, hl, if_pos hd]
        constructor
        · intro h
          exact absurd h (by simp)
        · rintro (h | ⟨lt', hlt', hge⟩)
          · simp at h
          · injection hlt' with he
            subst he
            exact absurd hge (by omega)
      · intro _
        simp [enqueueBackup, hl, if_pos hd]
      · intro h
        simp [enqueueBackup, hl, if_pos hd] at h
      · intro h
        simp [enqueueBackup, hl, if_pos hd] at h
    · by_cases hq : st.queueLen < st.queueCap
      · refine ⟨?_, ?_, ?_, ?_⟩
        · simp only [enqueueBackup, hl, if_neg hd, enqueueAttempt, if_pos hq]
          constructor
          · intro _
            exact Or.inr ⟨lastTime, rfl, by omega⟩
          · intro _
            exact trivial
        · intro h
          simp [enqueueBackup, hl, if_neg hd, enqueueAttempt, if_pos hq] at h
        · intro _ _
          refine ⟨?_, ?_, ?_⟩
          · simp [enqueueBackup, hl, if_neg hd, enqueueAttempt, if_pos hq, List.lookup]
          · simp [enqueueBackup, hl, if_neg hd, enqueueAttempt, if_pos hq]
          · simp [enqueueBackup, hl, if_neg hd, enqueueAttempt, if_pos hq]
        · intro _ h
          exact absurd hq h
      · refine ⟨?_, ?_, ?_, ?_⟩
        · simp only [enqueueBackup, hl, if_neg hd, enqueueAttempt, if_neg hq]
          constructor
          · intro _
            exact Or.inr ⟨lastTime, rfl, by omega⟩
          · intro _
            exact trivial
        · intro h
          simp [enqueueBackup, hl, if_neg hd, enqueueAttempt, if_neg hq] at h
        · intro _ h
          exact absurd h hq
        · intro _ _
          exact ⟨by simp [enqueueBackup, hl, if_neg hd, enqueueAttempt, if_neg hq], by
            simp [enqueueBackup, hl, if_neg hd, enqueueAttempt, if_neg hq]⟩

/-! ## Lexicographic comparator lemmas (for claims C1, C6, C9) -/

theorem charListLt_iff_lex : ∀ (a b : Name), charListLt a b = true ↔ List.Lex (· < ·) a b := by
  intro a
  induction a with
  | nil =>
    intro b
    cases b with
    | nil =>
      constructor
      · intro h
        simp [charListLt] at h
      · intro h
        cases h
    | cons y bs =>
      constructor
      · intro _
        exact List.Lex.nil
      · intro _
        rfl
  | cons x as ih =>
    intro b
    cases b with
    | nil =>
      constructor
      · intro h
        simp [charListLt] at h
      · intro h
        cases h
    | cons y bs =>
      by_cases hxy : x < y
      · constructor
        · intro _
          exact List.Lex.rel hxy
        · intro _
          simp [charListLt, hxy]
      · by_cases hyx : y < x
        · constructor
          · intro h
            simp [charListLt, hxy, hyx] at h
          · intro h
            cases h with
            | cons h' => exact absurd hyx (lt_irrefl _)
            | rel h' => exact absurd h' hxy
        · have hxyeq : x = y := le_antisymm (le_of_not_lt hyx) (le_of_not_lt hxy)
          subst hxyeq
          constructor
          · intro h
            exact List.Lex.cons ((ih bs).mp (by simpa [charListLt] using h))
          · intro h
            have : List.Lex (· < ·) as bs := by
              cases h with
              | cons h' => exact h'
              | rel h' => exact absurd h' (lt_irrefl _)
            simp [charListLt, (ih bs).mpr this]

theorem charListLt_irrefl (a : Name) : charListLt a a = false := by
  by_contra h
  rw [Bool.not_eq_false, charListLt_iff_lex] at h
  exact irrefl_of (List.Lex (· < ·)) a h

theorem nameLe_total : ∀ (a b : Name), nameLe a b ∨ nameLe b a := by
  intro a b
  unfold nameLe
  by_cases h : charListLt b a = false
  · exact Or.inl h
  · right
    rw [Bool.not_eq_false, charListLt_iff_lex] at h
    by_contra h2
    rw [Bool.not_eq_false, charListLt_iff_lex] at h2
    exact asymm h h2

theorem charListLt_conn : ∀ (a b : Name), charListLt a b = false → charListLt b a = false →
    a = b := by
  intro a
  induction a with
  | nil =>
    intro b
    cases b with
    | nil => intro _ _; rfl
    | cons y bs => intro h _; simp [charListLt] at h
  | cons x as ih =>
    intro b
    cases b with
    | nil => intro _ h2; simp [charListLt] at h2
    | cons y bs =>
      intro h1 h2
      by_cases hxy : x < y
      · simp [charListLt, hxy] at h1
      · by_cases hyx : y < x
        · simp [charListLt, hyx] at h2
        · have hxyeq : x = y := le_antisymm (le_of_not_lt hyx) (le_of_not_lt hxy)
          subst hxyeq
          simp only [charListLt, if_neg hxy, if_neg hyx] at h1 h2
          rw [ih bs h1 h2]

theorem nameLe_trans : ∀ (a b c : Name), nameLe a b → nameLe b c → nameLe a c := by
  intro a b c hab hbc
  unfold nameLe at *
  by_contra h
  rw [Bool.not_eq_false, charListLt_iff_lex] at h
  by_cases hbc2 : charListLt b c = false
  · have hcb : b = c := charListLt_conn b c hbc2 hbc
    subst hcb
    rw [← charListLt_iff_lex] at h
    simp [hab] at h
  · rw [Bool.not_eq_false, charListLt_iff_lex] at hbc2
    have hba : List.Lex (· < ·) b a := IsTrans.trans _ _ _ hbc2 h
    rw [← charListLt_iff_lex] at hba
    simp [hab] at hba

instance : IsTotal Name nameLe := ⟨nameLe_total⟩

instance : IsTrans Name nameLe := ⟨nameLe_trans⟩

/-! ## Removal loop lemmas (for claims C1 and C9) -/

theorem eraseName_cons_self (f : Name) (xs : List Name) : eraseName (f :: xs) f = xs := by
  simp [eraseName]

theorem eraseName_perm (f : Name) {l₁ l₂ : List Name} (h : l₁.Perm l₂) :
    (eraseName l₁ f).Perm (eraseName l₂ f) := by
  induction h with
  | nil => exact List.Perm.nil
  | cons x h' ih =>
    by_cases hx : x = f
    · simpa [eraseName, hx] using h'
    · simpa [eraseName, hx] using ih.cons x
  | swap x y l =>
    by_cases hy : y = f <;> by_cases hx : x = f
    · subst hy
      subst hx
      simp [eraseName]
    · simp [eraseName, hy, hx]
    · simp [eraseName, hy, hx]
    · simpa [eraseName, hy, hx] using List.Perm.swap x y (eraseName l f)
  | trans _ _ ih1 ih2 => exact ih1.trans ih2

theorem eraseName_mem {x f : Name} : ∀ {xs : List Name}, x ∈ xs → x ≠ f →
    x ∈ eraseName xs f := by
  intro xs
  induction xs with
  | nil => intro h _; cases h
  | cons y ys ih =>
    intro hx hxf
    by_cases hyf : y = f
    · rw [show eraseName (y :: ys) f = ys from by simp [eraseName, hyf]]
      rcases List.mem_cons.mp hx with h | h
      · exact absurd (h.trans hyf) hxf
      · exact h
    · rw [show eraseName (y :: ys) f = y :: eraseName ys f from by simp [eraseName, hyf]]
      rcases List.mem_cons.mp hx with h | h
      · exact h ▸ List.mem_cons_self y _
      · exact List.mem_cons_of_mem y (ih h hxf)

theorem removeSeq_ok_removed (fails : Name → Bool) :
    ∀ (pref xs : List Name), (removeSeq fails pref xs).1 = none →
      (removeSeq fails pref xs).2.1 = pref := by
  intro pref
  induction pref with
  | nil => intro xs _; rfl
  | cons f rest ih =>
    intro xs h
    by_cases hf : fails f = true
    · simp [removeSeq, hf] at h
    · rw [Bool.not_eq_true] at hf
      simp only [removeSeq, hf, Bool.false_eq_true, if_false] at h ⊢
      rw [ih (eraseName xs f) h]

theorem removeSeq_ok_perm (fails : Name → Bool) :
    ∀ (pref rest xs : List Name), xs.Perm (pref ++ rest) → (pref ++ rest).Nodup →
      (removeSeq fails pref xs).1 = none →
      (removeSeq fails pref xs).2.2.Perm rest := by
  intro pref
  induction pref with
  | nil =>
    intro rest xs hp _ _
    simpa [removeSeq] using hp
  | cons f pref' ih =>
    intro rest xs hp hnd h
    by_cases hf : fails f = true
    · simp [removeSeq, hf] at h
    · rw [Bool.not_eq_true] at hf
      simp only [removeSeq, hf, Bool.false_eq_true, if_false] at h ⊢
      have hp' : (eraseName xs f).Perm (pref' ++ rest) := by
        rw [List.cons_append] at hp
        have := eraseName_perm f hp
        rwa [eraseName_cons_self f (pref' ++ rest)] at this
      have hnd' : (pref' ++ rest).Nodup := by
        rw [List.cons_append, List.nodup_cons] at hnd
        exact hnd.2
      exact ih rest (eraseName xs f) hp' hnd' h

theorem removeSeq_mem_of_not_mem (fails : Name → Bool) :
    ∀ (pref xs : List Name) (x : Name), x ∈ xs → x ∉ pref →
      x ∈ (removeSeq fails pref xs).2.2 := by
  intro pref
  induction pref with
  | nil => intro xs x hx _; exact hx
  | cons f pref' ih =>
    intro xs x hx hnp
    by_cases hf : fails f = true
    · simpa [removeSeq, hf] using hx
    · rw [Bool.not_eq_true] at hf
      simp only [removeSeq, hf, Bool.false_eq_true, if_false]
      have hxf : x ≠ f := by
        intro hxf
        exact hnp (hxf ▸ List.mem_cons_self x pref')
      exact ih (eraseName xs f) x (eraseName_mem hx hxf)
        (fun hc => hnp (List.mem_cons_of_mem f hc))

theorem orderedInsert_of_max (a : Name) :
    ∀ (l : List Name), (∀ b ∈ l, charListLt b a = true) →
      List.orderedInsert nameLe a l = l ++ [a] := by
  intro l
  induction l with
  | nil => intro _; rfl
  | cons b bs ih =>
    intro h
    have hb : charListLt b a = true := h b (List.mem_cons_self b bs)
    have hnle : ¬ nameLe a b := by
      unfold nameLe
      simp [hb]
    simp only [List.orderedInsert, if_neg hnle, List.cons_append]
    rw [ih (fun c hc => h c (List.mem_cons_of_mem b hc))]

/-! ## Fixed-width decimal rendering lemmas (for claim C6) -/

theorem padNum_length : ∀ (w n : ℕ), (padNum w n).length = w := by
  intro w
  induction w with
  | zero => intro n; rfl
  | succ v ih => intro n; simp [padNum, ih]

theorem digitChar_lt_digitChar : ∀ (d e : ℕ), d < e → e < 10 →
    Nat.digitChar d < Nat.digitChar e := by
  intro d e h1 h2
  interval_cases e <;> interval_cases d <;> decide

theorem padNum_lt : ∀ (w m n : ℕ), n < 10 ^ w → m < n →
    List.Lex (· < ·) (padNum w m) (padNum w n) := by
  intro w
  induction w with
  | zero =>
    intro m n hn hm
    simp at hn
    omega
  | succ v ih =>
    intro m n hn hm
    have hpos : 0 < 10 ^ v := pow_pos (by norm_num) v
    have hdn : n / 10 ^ v < 10 := by
      rw [Nat.div_lt_iff_lt_mul hpos]
      calc n < 10 ^ (v + 1) := hn
        _ = 10 * 10 ^ v := by ring
    have hdle : m / 10 ^ v ≤ n / 10 ^ v := Nat.div_le_div_right (le_of_lt hm)
    show List.Lex (· < ·) (Nat.digitChar (m / 10 ^ v) :: padNum v (m % 10 ^ v))
      (Nat.digitChar (n / 10 ^ v) :: padNum v (n % 10 ^ v))
    rcases Nat.lt_or_ge (m / 10 ^ v) (n / 10 ^ v) with hlt | hge
    · exact List.Lex.rel (digitChar_lt_digitChar _ _ hlt hdn)
    · have heq : m / 10 ^ v = n / 10 ^ v := le_antisymm hdle hge
      rw [heq]
      refine List.Lex.cons ?_
      refine ih _ _ (Nat.mod_lt _ hpos) ?_
      have em := Nat.div_add_mod m (10 ^ v)
      have en := Nat.div_add_mod n (10 ^ v)
      rw [heq] at em
      set P := 10 ^ v * (n / 10 ^ v) with hP
      omega

theorem lex_append_of_length_eq :
    ∀ (xs ys as bs : List Char), xs.length = ys.length → List.Lex (· < ·) xs ys →
      List.Lex (· < ·) (xs ++ as) (ys ++ bs) := by
  intro xs ys as bs hlen h
  revert hlen
  induction h with
  | nil => intro hlen; simp at hlen
  | cons h' ih =>
    intro hlen
    exact List.Lex.cons (ih (by simpa using hlen))
  | rel hr =>
    intro _
    exact List.Lex.rel hr

/-! ## Claim C6 -/

/-- C6: for the same logical file (same base name and extension), version
names generated at chronologically ordered instants (differing at
microsecond resolution or coarser) compare lexicographically in the same
chronological order — the `"20060102_150405.000000"` layout is
fixed-width, zero-padded and most-significant-first.  The second conjunct
records the shape of the full path: the name
`<baseNameWithoutExt>_<YYYYMMDD_HHMMSS.microseconds><ext>` lives inside
`<backupRoot>/<relative-path>_versions/`. -/
theorem backupName_lex_of_earlier (base ext : Name) (t1 t2 : Timestamp)
    (h1 : t1.valid) (h2 : t2.valid) (hlt : t1.earlier t2) :
    List.Lex (· < ·) (backupName base ext t1) (backupName base ext t2) ∧
    (∀ (backupDir relPath : Name),
      backupPath backupDir relPath base ext t1 =
        backupDir ++ ('/' :: (relPath ++
          (['_', 'v', 'e', 'r', 's', 'i', 'o', 'n', 's'] ++
            ('/' :: (base ++ ('_' :: (t1.fmt ++ ext)))))))) := by
  constructor
  case right =>
    intro backupDir relPath
    simp [backupPath, fileVersionDir, backupName, List.append_assoc]
  case left =>
    obtain ⟨-, -, -, -, -, -, -⟩ := h1
    obtain ⟨hy2, hmo2, hd2, hh2, hmi2, hs2, hus2⟩ := h2
    unfold backupName Timestamp.fmt
    simp only [List.append_assoc, List.cons_append]
    refine List.Lex.append_left _ ?_ base
    refine List.Lex.cons ?_
    rcases hlt with hy | ⟨hy, hrest⟩
    · exact lex_append_of_length_eq _ _ _ _ (by simp [padNum_length]) (padNum_lt 4 _ _ hy2 hy)
    · rw [hy]
      refine List.Lex.append_left _ ?_ _
      rcases hrest with hmo | ⟨hmo, hrest⟩
      · exact lex_append_of_length_eq _ _ _ _ (by simp [padNum_length])
          (padNum_lt 2 _ _ hmo2 hmo)
      · rw [hmo]
        refine List.Lex.append_left _ ?_ _
        rcases hrest with hd | ⟨hd, hrest⟩
        · exact lex_append_of_length_eq _ _ _ _ (by simp [padNum_length])
            (padNum_lt 2 _ _ hd2 hd)
        · rw [hd]
          refine List.Lex.append_left _ ?_ _
          refine List.Lex.cons ?_
          rcases hrest with hh | ⟨hh, hrest⟩
          · exact lex_append_of_length_eq _ _ _ _ (by simp [padNum_length])
              (padNum_lt 2 _ _ hh2 hh)
          · rw [hh]
            refine List.Lex.append_left _ ?_ _
            rcases hrest with hmi | ⟨hmi, hrest⟩
            · exact lex_append_of_length_eq _ _ _ _ (by simp [padNum_length])
                (padNum_lt 2 _ _ hmi2 hmi)
            · rw [hmi]
              refine List.Lex.append_left _ ?_ _
              rcases hrest with hs | ⟨hs, hus⟩
              · exact lex_append_of_length_eq _ _ _ _ (by simp [padNum_length])
                  (padNum_lt 2 _ _ hs2 hs)
              · rw [hs]
                refine List.Lex.append_left _ ?_ _
                refine List.Lex.cons ?_
                exact lex_append_of_length_eq _ _ _ _ (by simp [padNum_length])
                  (padNum_lt 6 _ _ hus2 hus)

theorem backupName_lex_of_earlier_witness :
    List.Lex (· < ·)
      (backupName ['a'] ['.', 't', 'x', 't'] ⟨2024, 5, 17, 10, 30, 0, 999999⟩)
      (backupName ['a'] ['.', 't', 'x', 't'] ⟨2024, 5, 17, 10, 30, 1, 0⟩) :=
  (backupName_lex_of_earlier ['a'] ['.', 't', 'x', 't'] ⟨2024, 5, 17, 10, 30, 0, 999999⟩
    ⟨2024, 5, 17, 10, 30, 1, 0⟩ (by decide) (by decide) (by decide)).1

/-! ## Claim C1 -/

/-- C1: whenever `CreateBackup` returns without error (with
`maxVersions >= 1` and pairwise-distinct version filenames), the version
directory afterwards holds at most `maxVersions` files, the retained set
is exactly the `maxVersions` lexicographically greatest of the files
present after the new version was written (the suffix of the ascending
sorted listing, which by C6 are the most recently created), and the
deleted files are exactly the prefix of the ascending sorted listing —
i.e. the excess was deleted in ascending (oldest-first) order. -/
theorem createBackup_version_cap (maxVersions : ℕ) (base ext : Name) (ts : Timestamp)
    (env : BackupEnv) (dir : List Name) (hmax : 1 ≤ maxVersions)
    (hnd : (backupName base ext ts :: dir).Nodup)
    (hok : (CreateBackup maxVersions base ext ts env dir).result = .ok) :
    (CreateBackup maxVersions base ext ts env dir).dir.length ≤ maxVersions ∧
    (CreateBackup maxVersions base ext ts env dir).dir.Perm
      ((sortNames (backupName base ext ts :: dir)).drop
        ((sortNames (backupName base ext ts :: dir)).length - maxVersions)) ∧
    (CreateBackup maxVersions base ext ts env dir).removed =
      (sortNames (backupName base ext ts :: dir)).take
        ((sortNames (backupName base ext ts :: dir)).length - maxVersions) ∧
    List.Sorted nameLe (sortNames (backupName base ext ts :: dir)) := by
  by_cases hse : env.sourceExists = false
  · simp [CreateBackup, hse] at hok
  · by_cases hmk : env.mkdirOk = false
    · simp [CreateBackup, hse, hmk] at hok
    · cases hct : (SafeCopyFile env.copyEnvs 3).result with
      | failed e => simp [CreateBackup, hse, hmk, hct] at hok
      | exceeded le => simp [CreateBackup, hse, hmk, hct] at hok
      | ok =>
        cases hcl : (cleanOldVersions maxVersions env.removeFails
            (backupName base ext ts :: dir)).1 with
        | some f => simp [CreateBackup, hse, hmk, hct, hcl] at hok
        | none =>
          have htrace : CreateBackup maxVersions base ext ts env dir =
              ⟨.ok, true, (SafeCopyFile env.copyEnvs 3).calls,
               (cleanOldVersions maxVersions env.removeFails
                 (backupName base ext ts :: dir)).2.1,
               (cleanOldVersions maxVersions env.removeFails
                 (backupName base ext ts :: dir)).2.2⟩ := by
            simp [CreateBackup, hse, hmk, hct, hcl]
          rw [htrace]
          set nn := backupName base ext ts with hnn
          set all := sortNames (nn :: dir) with hall
          set k := all.length - maxVersions with hk
          by_cases hle : all.length ≤ maxVersions
          · have hc : cleanOldVersions maxVersions env.removeFails (nn :: dir) =
                (none, [], nn :: dir) := by
              simp [cleanOldVersions, ← hall, hle]
            rw [hc]
            have hlenall : all.length = (nn :: dir).length := by
              rw [hall, sortNames, List.length_insertionSort]
            have hk0 : k = 0 := by omega
            refine ⟨?_, ?_, ?_, List.sorted_insertionSort nameLe _⟩
            · show (nn :: dir).length ≤ maxVersions
              omega
            · show (nn :: dir).Perm (all.drop k)
              rw [hk0, List.drop_zero]
              exact (List.perm_insertionSort nameLe _).symm
            · show ([] : List Name) = all.take k
              rw [hk0, List.take_zero]
          · have hc : cleanOldVersions maxVersions env.removeFails (nn :: dir) =
                removeSeq env.removeFails (all.take k) (nn :: dir) := by
              simp [cleanOldVersions, ← hall, hle]
            rw [hc] at hcl ⊢
            have hperm : (nn :: dir).Perm all := (List.perm_insertionSort nameLe _).symm
            have hsplit : all = all.take k ++ all.drop k := (List.take_append_drop k all).symm
            have hnda : all.Nodup := hperm.nodup hnd
            have h2 := removeSeq_ok_perm env.removeFails (all.take k) (all.drop k)
              (nn :: dir) (hsplit ▸ hperm) (hsplit ▸ hnda) hcl
            have h1 := removeSeq_ok_removed env.removeFails (all.take k) (nn :: dir) hcl
            refine ⟨?_, h2, h1, List.sorted_insertionSort nameLe _⟩
            show (removeSeq env.removeFails (all.take k) (nn :: dir)).2.2.length ≤ maxVersions
            rw [h2.length_eq, List.length_drop]
            omega

theorem createBackup_version_cap_witness :
    (CreateBackup 2 ['b'] [] ⟨2024, 1, 2, 3, 4, 5, 6⟩
        ⟨true, true, fun _ => ⟨.ok false, .ok, .ok, [.eofMark], true⟩, fun _ => false⟩
        [['a'], ['c']]).dir.length ≤ 2 ∧
    (CreateBackup 2 ['b'] [] ⟨2024, 1, 2, 3, 4, 5, 6⟩
        ⟨true, true, fun _ => ⟨.ok false, .ok, .ok, [.eofMark], true⟩, fun _ => false⟩
        [['a'], ['c']]).dir.Perm
      ((sortNames (backupName ['b'] [] ⟨2024, 1, 2, 3, 4, 5, 6⟩ :: [['a'], ['c']])).drop
        ((sortNames (backupName ['b'] [] ⟨2024, 1, 2, 3, 4, 5, 6⟩ ::
          [['a'], ['c']])).length - 2)) ∧
    (CreateBackup 2 ['b'] [] ⟨2024, 1, 2, 3, 4, 5, 6⟩
        ⟨true, true, fun _ => ⟨.ok false, .ok, .ok, [.eofMark], true⟩, fun _ => false⟩
        [['a'], ['c']]).removed =
      (sortNames (backupName ['b'] [] ⟨2024, 1, 2, 3, 4, 5, 6⟩ :: [['a'], ['c']])).take
        ((sortNames (backupName ['b'] [] ⟨2024, 1, 2, 3, 4, 5, 6⟩ ::
          [['a'], ['c']])).length - 2) ∧
    List.Sorted nameLe (sortNames (backupName ['b'] [] ⟨2024, 1, 2, 3, 4, 5, 6⟩ ::
      [['a'], ['c']])) :=
  createBackup_version_cap 2 ['b'] [] ⟨2024, 1, 2, 3, 4, 5, 6⟩
    ⟨true, true, fun _ => ⟨.ok false, .ok, .ok, [.eofMark], true⟩, fun _ => false⟩
    [['a'], ['c']] (by decide) (by decide) (by decide)

/-! ## Claim C9 -/

/-- C9: if the copy of the new version succeeded but deleting one of the
excess oldest version files fails, `CreateBackup` returns an error for
the overall operation while the newly created version file remains in the
version directory — no rollback of the new version occurs.  (The
hypothesis that existing version files sort strictly below the new name
is the situation guaranteed by C6: the new version carries the latest
timestamp.) -/
theorem createBackup_eviction_failure (maxVersions : ℕ) (base ext : Name) (ts : Timestamp)
    (env : BackupEnv) (dir : List Name) (f : Name) (hmax : 1 ≤ maxVersions)
    (hse : env.sourceExists = true) (hmk : env.mkdirOk = true)
    (hcopy : (SafeCopyFile env.copyEnvs 3).result = .ok)
    (hold : ∀ g ∈ dir, charListLt g (backupName base ext ts) = true)
    (hfail : (cleanOldVersions maxVersions env.removeFails
      (backupName base ext ts :: dir)).1 = some f) :
    (CreateBackup maxVersions base ext ts env dir).result = .errClean f ∧
      backupName base ext ts ∈ (CreateBackup maxVersions base ext ts env dir).dir := by
  have htrace : CreateBackup maxVersions base ext ts env dir =
      ⟨.errClean f, true, (SafeCopyFile env.copyEnvs 3).calls,
       (cleanOldVersions maxVersions env.removeFails (backupName base ext ts :: dir)).2.1,
       (cleanOldVersions maxVersions env.removeFails
         (backupName base ext ts :: dir)).2.2⟩ := by
    simp [CreateBackup, hse, hmk, hcopy, hfail]
  rw [htrace]
  refine ⟨rfl, ?_⟩
  show backupName base ext ts ∈ (cleanOldVersions maxVersions env.removeFails
    (backupName base ext ts :: dir)).2.2
  set nn := backupName base ext ts with hnn
  set all := sortNames (nn :: dir) with hall
  set k := all.length - maxVersions with hk
  by_cases hle : all.length ≤ maxVersions
  · have hc : cleanOldVersions maxVersions env.removeFails (nn :: dir) =
        (none, [], nn :: dir) := by
      simp [cleanOldVersions, ← hall, hle]
    rw [hc] at hfail
    simp at hfail
  · have hc : cleanOldVersions maxVersions env.removeFails (nn :: dir) =
        removeSeq env.removeFails (all.take k) (nn :: dir) := by
      simp [cleanOldVersions, ← hall, hle]
    rw [hc]
    have hsort_eq : all = sortNames dir ++ [nn] := by
      rw [hall]
      rw [show sortNames (nn :: dir) = List.orderedInsert nameLe nn (sortNames dir)
        from rfl]
      exact orderedInsert_of_max nn (sortNames dir) (fun b hb =>
        hold b ((List.perm_insertionSort nameLe dir).mem_iff.mp hb))
    have hklen : k ≤ (sortNames dir).length := by
      have h1 : all.length = dir.length + 1 := by
        rw [hall, sortNames, List.length_insertionSort, List.length_cons]
      have h2 : (sortNames dir).length = dir.length := by
        rw [sortNames, List.length_insertionSort]
      omega
    have hnmem : nn ∉ all.take k := by
      intro hmem
      rw [hsort_eq, List.take_append_of_le_length hklen] at hmem
      have hm1 : nn ∈ sortNames dir := List.take_subset k _ hmem
      have hm2 : nn ∈ dir := (List.perm_insertionSort nameLe dir).mem_iff.mp hm1
      exact Bool.false_ne_true ((charListLt_irrefl nn).symm.trans (hold nn hm2))
    exact removeSeq_mem_of_not_mem env.removeFails (all.take k) (nn :: dir) nn
      (List.mem_cons_self nn dir) hnmem

theorem createBackup_eviction_failure_witness :
    (CreateBackup 1 ['b'] [] ⟨2024, 1, 2, 3, 4, 5, 6⟩
        ⟨true, true, fun _ => ⟨.ok false, .ok, .ok, [.eofMark], true⟩,
         fun g => decide (g = ['a'])⟩ [['a']]).result = .errClean ['a'] ∧
      backupName ['b'] [] ⟨2024, 1, 2, 3, 4, 5, 6⟩ ∈
        (CreateBackup 1 ['b'] [] ⟨2024, 1, 2, 3, 4, 5, 6⟩
          ⟨true, true, fun _ => ⟨.ok false, .ok, .ok, [.eofMark], true⟩,
           fun g => decide (g = ['a'])⟩ [['a']]).dir :=
  createBackup_eviction_failure 1 ['b'] [] ⟨2024, 1, 2, 3, 4, 5, 6⟩
    ⟨true, true, fun _ => ⟨.ok false, .ok, .ok, [.eofMark], true⟩,
     fun g => decide (g = ['a'])⟩ [['a']] ['a'] (by decide) rfl rfl (by decide)
    (by decide) (by decide)

/-! ## Claim C7 -/

/-- C7: an event whose operation is remove, rename, or permission-change
(its Create and Write bits unset) makes `handleEvent` return immediately:
no directory registration, no call to admission control, and the state
(debounce map and job queue) untouched.  Moreover `enqueueBackup` is
reached exactly for create/write events on non-directory, non-ignored
paths. -/
theorem handleEvent_dispatch (glob : String → String → Bool) (patterns : List String)
    (minInterval : Int) (isDir : String → Bool) (ev : FsEvent) (now : Int) (st : WState) :
    (ev.create = false → ev.write = false →
      (ev.remove = true ∨ ev.rename = true ∨ ev.chmod = true) →
      handleEvent glob patterns minInterval isDir ev now st = ⟨st, false, false⟩) ∧
    ((handleEvent glob patterns minInterval isDir ev now st).enqueueCalled = true ↔
      (ev.create = true ∨ ev.write = true) ∧ isDir ev.name = false ∧
        shouldIgnore glob patterns ev.name = false) := by
  rcases Bool.eq_false_or_eq_true ev.create with hc | hc <;>
  rcases Bool.eq_false_or_eq_true ev.write with hw | hw <;>
  rcases Bool.eq_false_or_eq_true (isDir ev.name) with hd | hd <;>
  rcases Bool.eq_false_or_eq_true (shouldIgnore glob patterns ev.name) with hi | hi <;>
  simp [handleEvent, handleTail, hc, hw, hd, hi]

theorem handleEvent_dispatch_witness :
    handleEvent (fun _ _ => false) [] 5 (fun _ => false)
        ⟨"x", false, false, true, false, false⟩ 0 ⟨[], 0, 5⟩ = ⟨⟨[], 0, 5⟩, false, false⟩ :=
  (handleEvent_dispatch (fun _ _ => false) [] 5 (fun _ => false)
    ⟨"x", false, false, true, false, false⟩ 0 ⟨[], 0, 5⟩).1 rfl rfl (Or.inl rfl)

/-! ## Claim C8 -/

/-- C8: a creation or write event on a non-directory path is dropped
silently (admission control is not reached) iff the path matches some
configured ignore pattern, where matching a pattern means a
`filepath.Match` glob match of the pattern against the path's base name
or a `strings.Contains` substring match of the pattern against the full
path (the substring alternative is what makes directory-name patterns
such as `.git` match every path inside the directory). -/
theorem ignored_event_dropped (glob : String → String → Bool) (patterns : List String)
    (minInterval : Int) (isDir : String → Bool) (ev : FsEvent) (now : Int) (st : WState) :
    (shouldIgnore glob patterns ev.name = true ↔
      ∃ p ∈ patterns, glob p (baseName ev.name) = true ∨ containsStr ev.name p = true) ∧
    ((ev.create = true ∨ ev.write = true) → isDir ev.name = false →
      ((handleEvent glob patterns minInterval isDir ev now st).enqueueCalled = false ↔
        shouldIgnore glob patterns ev.name = true)) := by
  constructor
  · induction patterns with
    | nil => simp [shouldIgnore]
    | cons p rest ih =>
      by_cases hg : glob p (baseName ev.name) = true
      · simp [shouldIgnore, hg]
      · by_cases hs : containsStr ev.name p = true
        · simp [shouldIgnore, hg, hs]
        · rw [show shouldIgnore glob (p :: rest) ev.name = shouldIgnore glob rest ev.name
            from by simp [shouldIgnore, hg, hs]]
          rw [ih]
          simp only [List.mem_cons]
          constructor
          · rintro ⟨q, hq, hor⟩
            exact ⟨q, Or.inr hq, hor⟩
          · rintro ⟨q, hq | hq, hor⟩
            · subst hq
              rcases hor with h | h
              · exact absurd h hg
              · exact absurd h hs
            · exact ⟨q, hq, hor⟩
  · intro hcw hd
    rcases hcw with hc | hw
    · rcases Bool.eq_false_or_eq_true (shouldIgnore glob patterns ev.name) with hi | hi <;>
        simp [handleEvent, handleTail, hc, hd, hi]
    · rcases Bool.eq_false_or_eq_true ev.create with hc | hc <;>
        rcases Bool.eq_false_or_eq_true (shouldIgnore glob patterns ev.name) with hi | hi <;>
        simp [handleEvent, handleTail, hc, hw, hd, hi]

theorem ignored_event_dropped_witness :
    (handleEvent (fun _ _ => false) [".git"] 5 (fun _ => false)
        ⟨"/a/.git/f", false, true, false, false, false⟩ 0 ⟨[], 0, 5⟩).enqueueCalled =
      false := by
  have h := ignored_event_dropped (fun _ _ => false) [".git"] 5 (fun _ => false)
    ⟨"/a/.git/f", false, true, false, false, false⟩ 0 ⟨[], 0, 5⟩
  exact (h.2 (Or.inr rfl) rfl).mpr (h.1.mpr ⟨".git", by decide, Or.inr (by decide)⟩)

theorem enqueueBackup_spec_witness :
    (enqueueBackup 5 ⟨[("b", 3)], 0, 5⟩ "b" 10).admitted = true ∧
      (enqueueBackup 5 ⟨[("b", 3)], 0, 5⟩ "b" 10).state.lastBackup.lookup "b" = some 10 := by
  have h := enqueueBackup_spec 5 ⟨[("b", 3)], 0, 5⟩ "b" 10
  have ha : (enqueueBackup 5 ⟨[("b", 3)], 0, 5⟩ "b" 10).admitted = true :=
    h.1.mpr (Or.inr ⟨3, by decide, by decide⟩)
  exact ⟨ha, (h.2.2.1 ha (by decide)).1⟩

end FWB
